import Mathlib

/-!
Verification of the core logic of `src/reformat_text.py` (german-oral-history-processor).

Python strings are modelled as `List Char` (Python `len` counts code points, which
matches `List.length` on the char list).  The remote chat-completion call made by
`process_chunk` is external; it is modelled by an explicit `CallOutcome` oracle
(either the call raises, or it returns generated text plus optional usage metadata).
The nondeterministic completion order of the thread pool in
`process_chunks_parallel` is modelled by an explicit `order : List Nat`
(the sequence of original 0-based chunk indices in the order their futures complete).
-/

set_option autoImplicit false
set_option linter.unusedVariables false

/-! ### Python string primitives -/

/-- Model of Python's whitespace test used by `str.strip()`
(characters ` `, `\t`, `\n`, `\r`, `\x0b`, `\x0c`). -/
def isPySpace (c : Char) : Bool :=
  c = ' ' || c = '\t' || c = '\n' || c = '\r' || c = Char.ofNat 11 || c = Char.ofNat 12

/-- Leading-whitespace removal, first half of Python `str.strip()`. -/
def stripLeading (l : List Char) : List Char :=
  l.dropWhile isPySpace

/-- Trailing-whitespace removal, second half of Python `str.strip()`. -/
def stripTrailing (l : List Char) : List Char :=
  (l.reverse.dropWhile isPySpace).reverse

/-- Model of Python `str.strip()` (no arguments): drop whitespace at both ends. -/
def pyStrip (l : List Char) : List Char :=
  stripLeading (stripTrailing l)

/-- Model of `text.replace('\n', ' ')`: the pattern is a single character, so the
replacement is a character map. -/
def replaceNewlines (l : List Char) : List Char :=
  l.map (fun c => if c = '\n' then ' ' else c)

/-- Model of Python `text.split('. ')`: split on non-overlapping leftmost
occurrences of the two-character separator `". "`; `"".split('. ') = [""]`. -/
def splitDotSpace : List Char → List (List Char)
  | [] => [[]]
  | '.' :: ' ' :: rest => [] :: splitDotSpace rest
  | c :: rest =>
    match splitDotSpace rest with
    | [] => [[c]]
    | h :: t => (c :: h) :: t

/-- `isPrefixOfL pat l` : Boolean test that `pat` is a leading segment of `l`. -/
def isPrefixOfL : List Char → List Char → Bool
  | [], _ => true
  | _ :: _, [] => false
  | a :: as, b :: bs => a == b && isPrefixOfL as bs

/-- Model of Python's substring test `pat in l`. -/
def containsSub (pat : List Char) : List Char → Bool
  | [] => isPrefixOfL pat []
  | c :: rest => isPrefixOfL pat (c :: rest) || containsSub pat rest

/-- Scanner for `countOccur`: `k` is the number of characters still to be
skipped before matching resumes (used to advance past a found occurrence,
as Python `str.count` counts non-overlapping occurrences). -/
def countOccurAux (sep : List Char) : List Char → Nat → Nat
  | [], _ => 0
  | _ :: rest, k + 1 => countOccurAux sep rest k
  | c :: rest, 0 =>
    if isPrefixOfL sep (c :: rest) then 1 + countOccurAux sep rest (sep.length - 1)
    else countOccurAux sep rest 0

/-- Model of Python `l.count(sep)`: number of non-overlapping occurrences of
`sep`, scanning left to right. -/
def countOccur (sep : List Char) (l : List Char) : Nat :=
  countOccurAux sep l 0

/-- Decimal digit rendering (for Python's `{n}` / `{n:d}` formatting of a
nonnegative integer); the first argument is recursion fuel. -/
def natDigitsAux : Nat → Nat → List Char
  | 0, _ => []
  | fuel + 1, n =>
    if n < 10 then [Char.ofNat (48 + n)]
    else natDigitsAux fuel (n / 10) ++ [Char.ofNat (48 + n % 10)]

/-- Decimal rendering of a natural number, e.g. `natDigits 125 = "125".data`. -/
def natDigits (n : Nat) : List Char :=
  natDigitsAux (n + 1) n

/-! ### Chunker (`split_into_contextual_chunks`, reformat_text.py lines 46-70) -/

/-- One iteration of the `for sentence in sentences` loop of
`split_into_contextual_chunks`: the accumulator is `(chunks, current_chunk)`. -/
def chunkStep (maxChunkSize : Nat) (acc : List (List Char) × List Char)
    (sentence : List Char) : List (List Char) × List Char :=
  if acc.2.length + sentence.length > maxChunkSize ∧ acc.2 ≠ [] then
    (acc.1 ++ [pyStrip acc.2], sentence ++ ['.', ' '])
  else
    (acc.1, acc.2 ++ sentence ++ ['.', ' '])

/-- Model of `split_into_contextual_chunks(text, max_chunk_size)`:
normalize newlines to spaces, split on `". "`, greedily accumulate fragments
(each re-appended with `". "`), flush the final buffer, then drop every chunk
whose length is ≤ 50. -/
def split_into_contextual_chunks (text : List Char) (maxChunkSize : Nat) :
    List (List Char) :=
  let sentences := splitDotSpace (replaceNewlines text)
  let r := sentences.foldl (chunkStep maxChunkSize) ([], [])
  let chunks := if r.2 ≠ [] then r.1 ++ [pyStrip r.2] else r.1
  chunks.filter (fun c => 50 < c.length)

/-! ### Per-chunk processing (`process_chunk`, reformat_text.py lines 72-118) -/

/-- Usage metadata reported by one completed remote call
(`response.usage` fields). -/
structure Usage where
  prompt_tokens : Nat
  completion_tokens : Nat
  total_tokens : Nat
  deriving DecidableEq

/-- Outcome of the external `client.chat.completions.create` call for one chunk:
either some exception is raised inside the `try` block, or the call returns
message content (`response.choices[0].message.content`) together with optional
usage metadata. -/
inductive CallOutcome where
  | raises : CallOutcome
  | returns (content : List Char) (usage : Option Usage) : CallOutcome
  deriving DecidableEq

/-- The literal structural marker `"German:"`. -/
def germanMarker : List Char := "German:".data

/-- The literal structural marker `"English:"`. -/
def englishMarker : List Char := "English:".data

/-- The error tag produced on failed validation:
`f"[Error processing chunk {chunk_number}]\n"`. -/
def errorHeader (chunk_number : Nat) : List Char :=
  "[Error processing chunk ".data ++ natDigits chunk_number ++ "]\n".data

/-- Model of `process_chunk(chunk, client, chunk_number)`.
The chunk text only feeds the request payload; the result string is determined
by the call's outcome: an exception yields `""`; otherwise the returned content
is stripped and, if it lacks either structural marker, wrapped with the error
header (soft validation).  The `cost_tracker.add_usage` side effect is modelled
separately by `CostTracker.add_usage`. -/
def process_chunk (chunk : List Char) (outcome : CallOutcome)
    (chunk_number : Nat) : List Char :=
  match outcome with
  | CallOutcome.raises => []
  | CallOutcome.returns content _ =>
    let result := pyStrip content
    if !containsSub germanMarker result || !containsSub englishMarker result then
      errorHeader chunk_number ++ result
    else
      result

/-! ### Parallel dispatcher (`process_chunks_parallel`, lines 120-143) -/

/-- Model of `process_chunks_parallel(chunks, max_workers)`.
Futures are submitted for chunks `1..N` (`enumerate(chunks, 1)`), and the
`as_completed` loop appends each chunk's result to `results` in *completion*
order; `order` lists the 0-based chunk indices in completion order, and
`outcomes` gives each chunk's call outcome.  A future whose unit of work raised
is already mapped to `""` inside `process_chunk`. -/
def process_chunks_parallel (chunks : List (List Char))
    (outcomes : List CallOutcome) (order : List Nat) : List (List Char) :=
  order.map (fun i =>
    process_chunk (chunks.getD i []) (outcomes.getD i CallOutcome.raises) (i + 1))

/-! ### Aggregation (`reformat_text`, line 158) -/

/-- The fixed separator `"\n\n---\n\n"` used to join chunk results. -/
def sepChars : List Char := ['\n', '\n', '-', '-', '-', '\n', '\n']

/-- Two consecutive newlines, the leading segment of `sepChars`. -/
def nnChars : List Char := ['\n', '\n']

/-- Model of Python `sep.join(xs)`. -/
def joinWithSep : List (List Char) → List Char
  | [] => []
  | [x] => x
  | x :: y :: rest => x ++ sepChars ++ joinWithSep (y :: rest)

/-- Model of `"\n\n---\n\n".join(r for r in results if r)`: drop empty results,
join the rest with the fixed separator. -/
def aggregate (results : List (List Char)) : List Char :=
  joinWithSep (results.filter (fun r => !r.isEmpty))

/-! ### Cost tracker (`CostTracker`, lines 12-42) -/

/-- The running totals of `CostTracker` (`start_time` is wall-clock state and is
passed to the report as an explicit elapsed duration instead). -/
structure CostTracker where
  total_tokens : Nat
  total_prompt_tokens : Nat
  total_completion_tokens : Nat
  deriving DecidableEq

/-- `CostTracker.__init__`: all counters start at zero. -/
def CostTracker.init : CostTracker := ⟨0, 0, 0⟩

/-- Model of `CostTracker.add_usage(response)`: a response without usage
metadata (`hasattr(response, 'usage')` false) is a no-op; otherwise all three
counters are incremented by the reported amounts. -/
def CostTracker.add_usage (t : CostTracker) (usage : Option Usage) : CostTracker :=
  match usage with
  | none => t
  | some u =>
    ⟨t.total_tokens + u.total_tokens,
     t.total_prompt_tokens + u.prompt_tokens,
     t.total_completion_tokens + u.completion_tokens⟩

/-- Zero-padded two-digit rendering, Python's `{n:02d}` for `n ≥ 0`. -/
def pad2 (n : Nat) : List Char :=
  if n < 10 then '0' :: natDigits n else natDigits n

/-- Model of the elapsed-time field of `CostTracker.report()`:
`hours, remainder = divmod(duration, 3600)`, `minutes, seconds = divmod(remainder, 60)`,
rendered as `f"{int(hours):02d}:{int(minutes):02d}:{seconds:05.2f}"`.
The duration is modelled as a rational number; `divmod` on nonnegative floats is
floored division with remainder, and `{:05.2f}` rounds to a whole number of
hundredths (for the durations considered here the binary-float rounding of the
Python original produces the same decimal string). -/
def formatElapsed (duration : ℚ) : List Char :=
  let hours : Int := ⌊duration / 3600⌋
  let remainder : ℚ := duration - 3600 * hours
  let minutes : Int := ⌊remainder / 60⌋
  let seconds : ℚ := remainder - 60 * minutes
  let hundredths : Int := ⌊seconds * 100 + 1 / 2⌋
  pad2 hours.toNat ++ (':' :: pad2 minutes.toNat) ++
    (':' :: pad2 (hundredths.toNat / 100)) ++ ('.' :: pad2 (hundredths.toNat % 100))

/-! ### Concrete inputs used by counterexamples and witnesses -/

/-- A 55-character text whose two sentence fragments (28 and 25 characters)
are merged by the chunker into one 56-character chunk at `maxChunkSize = 55`. -/
def textC2 : List Char :=
  "abcdefghijklmnopqrstuvwxyzAB. abcdefghijklmnopqrstuvwxy".data

/-- The single chunk the chunker produces from `textC2` at size 55. -/
def chunkC2 : List Char :=
  "abcdefghijklmnopqrstuvwxyzAB. abcdefghijklmnopqrstuvwxy.".data

/-- First chunk of the two-chunk dispatcher scenario. -/
def chunkA : List Char := "erste Frage".data

/-- Second chunk of the two-chunk dispatcher scenario. -/
def chunkB : List Char := "zweite Antwort".data

/-- Call outcomes for the two-chunk scenario: both calls succeed and return
well-formed bilingual output (both markers present), with distinct texts. -/
def outcomesC1 : List CallOutcome :=
  [CallOutcome.returns "German: eins\nEnglish: one".data (some ⟨10, 5, 15⟩),
   CallOutcome.returns "German: zwei\nEnglish: two".data (some ⟨20, 10, 30⟩)]

/-- A single dispatcher result that itself contains the aggregation separator. -/
def resC4 : List Char := 'a' :: (sepChars ++ ['b'])

/-! ### Claim theorems (easy group) -/

/-- Claim C1 (code_bug): the spec's contract says `process_chunks_parallel`
returns results in original chunk order, but the code appends results in
completion order.  At the concrete failing input (two chunks, both calls
succeeding with distinct outputs, the second future completing first) the
returned list differs from the list of per-chunk results in chunk order. -/
theorem C1_completion_order_bug :
    process_chunks_parallel [chunkA, chunkB] outcomesC1 [1, 0] ≠
      (List.range 2).map (fun i =>
        process_chunk ([chunkA, chunkB].getD i [])
          (outcomesC1.getD i CallOutcome.raises) (i + 1)) := by
  decide

/-- Claim C2, counterexample: it is not true that every chunk is bounded by
`maxChunkSize` unless it consists of a single oversized fragment.  For `textC2`
at size 55 the chunker emits one 56-character chunk built from two fragments,
neither of which exceeds 55. -/
theorem C2_counterexample :
    ¬ (∀ chunk ∈ split_into_contextual_chunks textC2 55,
        chunk.length ≤ 55 ∨
        ∃ frag ∈ splitDotSpace (replaceNewlines textC2),
          55 < frag.length ∧ chunk = pyStrip (frag ++ ['.', ' '])) := by
  decide

/-- Claim C4, counterexample: the aggregated output does not always contain
exactly (count of non-empty results − 1) separator occurrences: a single
non-empty result that itself contains `"\n\n---\n\n"` yields one occurrence
where the claim predicts zero. -/
theorem C4_counterexample :
    ¬ (countOccur sepChars (aggregate [resC4]) =
        ([resC4].filter (fun r => !r.isEmpty)).length - 1) := by
  decide

/-- Claim C6: `split_into_contextual_chunks` is a total function (it is a Lean
`def`), and on the empty input it returns the empty chunk list for every
maximum size. -/
theorem C6_empty_input (maxSize : Nat) :
    split_into_contextual_chunks [] maxSize = [] := by
  simp [split_into_contextual_chunks, splitDotSpace, replaceNewlines, chunkStep,
    pyStrip, stripLeading, stripTrailing, isPySpace, List.dropWhile]

/-- Claim C7: recording two usage records into the cost tracker in either order
yields the same accumulated totals, and recording {prompt 10, completion 5,
total 15} and {prompt 20, completion 10, total 30} in either order yields
totals {total 45, prompt 30, completion 15}. -/
theorem C7_usage_accumulation_order :
    (∀ (t : CostTracker) (u v : Option Usage),
        (t.add_usage u).add_usage v = (t.add_usage v).add_usage u) ∧
    (CostTracker.init.add_usage (some ⟨10, 5, 15⟩)).add_usage (some ⟨20, 10, 30⟩) =
      ⟨45, 30, 15⟩ ∧
    (CostTracker.init.add_usage (some ⟨20, 10, 30⟩)).add_usage (some ⟨10, 5, 15⟩) =
      ⟨45, 30, 15⟩ := by
  refine ⟨?_, by decide, by decide⟩
  intro t u v
  cases u with
  | none => cases v <;> rfl
  | some a =>
    cases v with
    | none => rfl
    | some b => simp [CostTracker.add_usage]; omega

/-- Claim C8: the elapsed-time field of the cost report renders a measured
duration of 125.4 seconds as `00:02:05.40`. -/
theorem C8_elapsed_format : formatElapsed (627 / 5) = "00:02:05.40".data := by
  have h1 : ⌊(627 / 5 : ℚ) / 3600⌋ = (0 : ℤ) := by norm_num
  have h2 : ⌊((627 / 5 : ℚ) - 3600 * ((0 : ℤ) : ℚ)) / 60⌋ = (2 : ℤ) := by norm_num
  have h3 : ⌊(((627 / 5 : ℚ) - 3600 * ((0 : ℤ) : ℚ)) - 60 * ((2 : ℤ) : ℚ)) * 100 + 1 / 2⌋
      = (540 : ℤ) := by norm_num
  simp only [formatElapsed]
  rw [h1, h2, h3]
  decide

/-- Claim C10: the invariant `total_tokens = total_prompt_tokens +
total_completion_tokens` holds for a freshly created tracker, and is preserved
by `add_usage` whenever the recorded usage record itself satisfies
`total_tokens = prompt_tokens + completion_tokens`. -/
theorem C10_total_invariant (t : CostTracker) (u : Option Usage)
    (ht : t.total_tokens = t.total_prompt_tokens + t.total_completion_tokens)
    (hu : ∀ x, u = some x → x.total_tokens = x.prompt_tokens + x.completion_tokens) :
    CostTracker.init.total_tokens =
      CostTracker.init.total_prompt_tokens + CostTracker.init.total_completion_tokens ∧
    (t.add_usage u).total_tokens =
      (t.add_usage u).total_prompt_tokens + (t.add_usage u).total_completion_tokens := by
  refine ⟨rfl, ?_⟩
  cases u with
  | none => exact ht
  | some x =>
    have hx := hu x rfl
    simp [CostTracker.add_usage]
    omega

/-- Witness for C10: the invariant-preservation theorem applied to the fresh
tracker and the concrete record {prompt 10, completion 5, total 15}. -/
theorem C10_total_invariant_witness :
    ((CostTracker.init.total_tokens =
        CostTracker.init.total_prompt_tokens + CostTracker.init.total_completion_tokens) ∧
     (∀ x, (some (⟨10, 5, 15⟩ : Usage) = some x) →
        x.total_tokens = x.prompt_tokens + x.completion_tokens)) ∧
    (CostTracker.init.total_tokens =
       CostTracker.init.total_prompt_tokens + CostTracker.init.total_completion_tokens ∧
     (CostTracker.init.add_usage (some ⟨10, 5, 15⟩)).total_tokens =
       (CostTracker.init.add_usage (some ⟨10, 5, 15⟩)).total_prompt_tokens +
         (CostTracker.init.add_usage (some ⟨10, 5, 15⟩)).total_completion_tokens) :=
  ⟨⟨by decide, by intro x hx; cases hx; decide⟩,
   C10_total_invariant CostTracker.init (some ⟨10, 5, 15⟩) (by decide)
     (by intro x hx; cases hx; decide)⟩

/-! ### Helper lemmas: stripping and buffer shape -/

theorem dropWhile_length_le {α : Type} (p : α → Bool) (l : List α) :
    (l.dropWhile p).length ≤ l.length := by
  induction l with
  | nil => simp [List.dropWhile]
  | cons a l ih =>
    by_cases h : p a
    · rw [List.dropWhile_cons, if_pos h]; simp; omega
    · rw [List.dropWhile_cons, if_neg h]

theorem stripTrailing_length_le (l : List Char) :
    (stripTrailing l).length ≤ l.length := by
  have h := dropWhile_length_le isPySpace l.reverse
  simpa [stripTrailing] using h

theorem pyStrip_length_le (l : List Char) : (pyStrip l).length ≤ l.length :=
  le_trans (dropWhile_length_le isPySpace (stripTrailing l)) (stripTrailing_length_le l)

theorem dotspace_eq (p : List Char) : p ++ ['.', ' '] = (p ++ ['.']) ++ [' '] := by
  simp

theorem stripTrailing_append_space (l : List Char) :
    stripTrailing (l ++ [' ']) = stripTrailing l := by
  have hsp : isPySpace ' ' = true := rfl
  simp [stripTrailing, List.reverse_append, List.dropWhile_cons, hsp]

theorem pyStrip_append_space (l : List Char) : pyStrip (l ++ [' ']) = pyStrip l := by
  simp [pyStrip, stripTrailing_append_space]

theorem pyStrip_dotspace_length (p : List Char) :
    (pyStrip (p ++ ['.', ' '])).length ≤ p.length + 1 := by
  rw [dotspace_eq, pyStrip_append_space]
  calc (pyStrip (p ++ ['.'])).length ≤ (p ++ ['.']).length := pyStrip_length_le _
    _ = p.length + 1 := by simp

theorem stripTrailing_period (p : List Char) :
    stripTrailing (p ++ ['.']) = p ++ ['.'] := by
  have hdot : isPySpace '.' = false := rfl
  simp [stripTrailing, List.reverse_append, List.dropWhile_cons, hdot]

theorem stripLeading_period (p : List Char) :
    ∃ q, stripLeading (p ++ ['.']) = q ++ ['.'] := by
  induction p with
  | nil => exact ⟨[], rfl⟩
  | cons c p ih =>
    by_cases h : isPySpace c
    · obtain ⟨q, hq⟩ := ih
      refine ⟨q, ?_⟩
      rw [List.cons_append, stripLeading, List.dropWhile_cons, if_pos h]
      exact hq
    · refine ⟨c :: p, ?_⟩
      rw [List.cons_append, stripLeading, List.dropWhile_cons, if_neg h]

theorem pyStrip_dotspace_period (p : List Char) :
    ∃ q, pyStrip (p ++ ['.', ' ']) = q ++ ['.'] := by
  rw [dotspace_eq, pyStrip_append_space]
  unfold pyStrip
  rw [stripTrailing_period]
  exact stripLeading_period p

theorem foldl_inv {α β : Type} (f : β → α → β) (P : β → Prop) (Q : α → Prop)
    (hstep : ∀ b a, P b → Q a → P (f b a)) :
    ∀ (l : List α), (∀ a ∈ l, Q a) → ∀ b, P b → P (l.foldl f b) := by
  intro l
  induction l with
  | nil => intro _ b hb; exact hb
  | cons a l ih =>
    intro hl b hb
    exact ih (fun x hx => hl x (List.mem_cons_of_mem a hx)) (f b a)
      (hstep b a hb (hl a (List.mem_cons_self a l)))

/-- A chunk satisfying the amended size bound: at most one character over the
maximum, or the stripped re-delimited form of a single oversized fragment. -/
def GoodChunk (maxSize : Nat) (sents : List (List Char)) (c : List Char) : Prop :=
  c.length ≤ maxSize + 1 ∨
    ∃ frag ∈ sents, maxSize < frag.length ∧ c = pyStrip (frag ++ ['.', ' '])

/-- Shape invariant on the chunker's running buffer: empty, or some prefix
followed by the restored delimiter `". "`, where the prefix either fits the
maximum or is a single fragment of the split. -/
def GoodBuf (maxSize : Nat) (sents : List (List Char)) (cur : List Char) : Prop :=
  cur = [] ∨ ∃ p, cur = p ++ ['.', ' '] ∧ (p.length ≤ maxSize ∨ p ∈ sents)

theorem push_good {maxSize : Nat} {sents : List (List Char)} {cur : List Char}
    (h : GoodBuf maxSize sents cur) (hne : cur ≠ []) :
    GoodChunk maxSize sents (pyStrip cur) := by
  rcases h with rfl | ⟨p, rfl, hp⟩
  · exact absurd rfl hne
  · by_cases hlen : p.length ≤ maxSize
    · left
      calc (pyStrip (p ++ ['.', ' '])).length ≤ p.length + 1 := pyStrip_dotspace_length p
        _ ≤ maxSize + 1 := by omega
    · rcases hp with hle | hmem
      · omega
      · exact Or.inr ⟨p, hmem, by omega, rfl⟩

theorem chunkStep_inv {maxSize : Nat} {sents : List (List Char)}
    (acc : List (List Char) × List Char) (s : List Char)
    (hacc : (∀ c ∈ acc.1, GoodChunk maxSize sents c) ∧ GoodBuf maxSize sents acc.2)
    (hs : s ∈ sents) :
    (∀ c ∈ (chunkStep maxSize acc s).1, GoodChunk maxSize sents c) ∧
    GoodBuf maxSize sents (chunkStep maxSize acc s).2 := by
  obtain ⟨h1, h2⟩ := hacc
  unfold chunkStep
  by_cases hcond : acc.2.length + s.length > maxSize ∧ acc.2 ≠ []
  · rw [if_pos hcond]
    refine ⟨?_, Or.inr ⟨s, rfl, Or.inr hs⟩⟩
    intro c hc
    rcases List.mem_append.mp hc with hc | hc
    · exact h1 c hc
    · rcases List.mem_singleton.mp hc with rfl
      exact push_good h2 hcond.2
  · rw [if_neg hcond]
    refine ⟨h1, ?_⟩
    rcases h2 with hemp | ⟨p, hp, hpgood⟩
    · refine Or.inr ⟨s, ?_, Or.inr hs⟩
      rw [hemp]
      simp
    · refine Or.inr ⟨acc.2 ++ s, by simp, Or.inl ?_⟩
      have hne : acc.2 ≠ [] := by rw [hp]; simp
      have hgt : ¬ (acc.2.length + s.length > maxSize) := fun hgt => hcond ⟨hgt, hne⟩
      simp only [List.length_append]
      omega

/-- Claim C2, amended: every chunk produced by the chunker has length at most
`maxChunkSize + 1` (the restored `". "` delimiter is appended after the size
check, and trimming removes only the trailing space), unless the chunk consists
of a single sentence fragment that by itself exceeds the maximum size. -/
theorem C2_chunk_size_amended (text : List Char) (maxSize : Nat) :
    ∀ chunk ∈ split_into_contextual_chunks text maxSize,
      chunk.length ≤ maxSize + 1 ∨
      ∃ frag ∈ splitDotSpace (replaceNewlines text),
        maxSize < frag.length ∧ chunk = pyStrip (frag ++ ['.', ' ']) := by
  intro chunk hchunk
  simp only [split_into_contextual_chunks] at hchunk
  have hfold := foldl_inv (chunkStep maxSize)
    (fun acc => (∀ c ∈ acc.1, GoodChunk maxSize (splitDotSpace (replaceNewlines text)) c) ∧
      GoodBuf maxSize (splitDotSpace (replaceNewlines text)) acc.2)
    (fun s => s ∈ splitDotSpace (replaceNewlines text))
    (fun b a hb ha => chunkStep_inv b a hb ha)
    (splitDotSpace (replaceNewlines text)) (fun a ha => ha) ([], [])
    ⟨fun c hc => absurd hc (List.not_mem_nil c), Or.inl rfl⟩
  set r := (splitDotSpace (replaceNewlines text)).foldl (chunkStep maxSize) ([], []) with hr
  have hpre : chunk ∈ (if r.2 ≠ [] then r.1 ++ [pyStrip r.2] else r.1) :=
    List.mem_of_mem_filter hchunk
  have hgood : GoodChunk maxSize (splitDotSpace (replaceNewlines text)) chunk := by
    by_cases hne : r.2 ≠ []
    · rw [if_pos hne] at hpre
      rcases List.mem_append.mp hpre with h | h
      · exact hfold.1 chunk h
      · rcases List.mem_singleton.mp h with rfl
        exact push_good hfold.2 hne
    · rw [if_neg hne] at hpre
      exact hfold.1 chunk hpre
  exact hgood

/-- Witness for C2 (amended): on `textC2` at size 55 the produced 56-character
chunk satisfies the amended bound 55 + 1. -/
theorem C2_chunk_size_witness :
    chunkC2 ∈ split_into_contextual_chunks textC2 55 ∧
    (chunkC2.length ≤ 55 + 1 ∨
      ∃ frag ∈ splitDotSpace (replaceNewlines textC2),
        55 < frag.length ∧ chunkC2 = pyStrip (frag ++ ['.', ' '])) :=
  ⟨by decide, C2_chunk_size_amended textC2 55 chunkC2 (by decide)⟩

theorem chunkStep_period (maxSize : Nat) (acc : List (List Char) × List Char)
    (s : List Char)
    (hacc : (∀ c ∈ acc.1, ∃ q, c = q ++ ['.']) ∧
      (acc.2 = [] ∨ ∃ p, acc.2 = p ++ ['.', ' '])) :
    (∀ c ∈ (chunkStep maxSize acc s).1, ∃ q, c = q ++ ['.']) ∧
    ((chunkStep maxSize acc s).2 = [] ∨
      ∃ p, (chunkStep maxSize acc s).2 = p ++ ['.', ' ']) := by
  obtain ⟨h1, h2⟩ := hacc
  unfold chunkStep
  by_cases hcond : acc.2.length + s.length > maxSize ∧ acc.2 ≠ []
  · rw [if_pos hcond]
    constructor
    · intro c hc
      rcases List.mem_append.mp hc with hc | hc
      · exact h1 c hc
      · rcases List.mem_singleton.mp hc with rfl
        rcases h2 with hemp | ⟨p, hp⟩
        · exact absurd hemp hcond.2
        · rw [hp]
          exact pyStrip_dotspace_period p
    · exact Or.inr ⟨s, rfl⟩
  · rw [if_neg hcond]
    exact ⟨h1, Or.inr ⟨acc.2 ++ s, by simp⟩⟩

/-- Claim C9: every chunk returned by the chunker ends with the character `'.'`:
each fragment is re-appended with the delimiter `". "` (including the final
fragment, whether or not the text ended with a period), and trimming removes
only the trailing space. -/
theorem C9_chunks_end_with_period (text : List Char) (maxSize : Nat) :
    ∀ chunk ∈ split_into_contextual_chunks text maxSize,
      ∃ q, chunk = q ++ ['.'] := by
  intro chunk hchunk
  simp only [split_into_contextual_chunks] at hchunk
  have hfold := foldl_inv (chunkStep maxSize)
    (fun acc => (∀ c ∈ acc.1, ∃ q, c = q ++ ['.']) ∧
      (acc.2 = [] ∨ ∃ p, acc.2 = p ++ ['.', ' ']))
    (fun _ => True)
    (fun b a hb _ => chunkStep_period maxSize b a hb)
    (splitDotSpace (replaceNewlines text)) (fun _ _ => trivial) ([], [])
    ⟨fun c hc => absurd hc (List.not_mem_nil c), Or.inl rfl⟩
  set r := (splitDotSpace (replaceNewlines text)).foldl (chunkStep maxSize) ([], []) with hr
  have hpre : chunk ∈ (if r.2 ≠ [] then r.1 ++ [pyStrip r.2] else r.1) :=
    List.mem_of_mem_filter hchunk
  by_cases hne : r.2 ≠ []
  · rw [if_pos hne] at hpre
    rcases List.mem_append.mp hpre with h | h
    · exact hfold.1 chunk h
    · rcases List.mem_singleton.mp h with rfl
      rcases hfold.2 with hemp | ⟨p, hp⟩
      · exact absurd hemp hne
      · rw [hp]
        exact pyStrip_dotspace_period p
  · rw [if_neg hne] at hpre
    exact hfold.1 chunk hpre

/-- A 60-character single-fragment text used to witness C9. -/
def textC9 : List Char := List.replicate 60 'a'

/-- Witness for C9: the chunk produced from sixty `'a'`s ends with `'.'`. -/
theorem C9_chunks_end_with_period_witness :
    (List.replicate 60 'a' ++ ['.']) ∈ split_into_contextual_chunks textC9 400 ∧
    ∃ q, (List.replicate 60 'a' ++ ['.']) = q ++ ['.'] :=
  ⟨by decide,
   C9_chunks_end_with_period textC9 400 (List.replicate 60 'a' ++ ['.']) (by decide)⟩

/-! ### Dispatcher slot accounting (C3) -/

theorem getD_of_getElem {α : Type} (l : List α) (n : Nat) (d : α)
    (h : n < l.length) : l.getD n d = l[n] := by
  simp [List.getD, List.getElem?_eq_getElem h]

/-- Claim C3: under any completion order that is a permutation of the chunk
indices, the dispatcher returns exactly N result strings, each chunk
contributes the result of its own call at its completion slot, and a chunk
whose call raises contributes the empty string there — no chunk's failure
removes any other chunk's slot. -/
theorem C3_result_slots (chunks : List (List Char)) (outcomes : List CallOutcome)
    (order : List Nat)
    (hperm : List.Perm order (List.range chunks.length)) :
    (process_chunks_parallel chunks outcomes order).length = chunks.length ∧
    ∀ i, i < chunks.length →
      ∃ pos, pos < (process_chunks_parallel chunks outcomes order).length ∧
        order.getD pos 0 = i ∧
        (process_chunks_parallel chunks outcomes order).getD pos [] =
          process_chunk (chunks.getD i []) (outcomes.getD i CallOutcome.raises) (i + 1) ∧
        (outcomes.getD i CallOutcome.raises = CallOutcome.raises →
          (process_chunks_parallel chunks outcomes order).getD pos [] = []) := by
  have hlen : (process_chunks_parallel chunks outcomes order).length = order.length := by
    simp [process_chunks_parallel]
  constructor
  · rw [hlen, hperm.length_eq, List.length_range]
  · intro i hi
    have hmem : i ∈ order := hperm.mem_iff.mpr (List.mem_range.mpr hi)
    obtain ⟨pos, hpos, hget⟩ := List.mem_iff_getElem.mp hmem
    have hpos' : pos < (process_chunks_parallel chunks outcomes order).length := by
      rw [hlen]; exact hpos
    have hres : (process_chunks_parallel chunks outcomes order).getD pos [] =
        process_chunk (chunks.getD i []) (outcomes.getD i CallOutcome.raises) (i + 1) := by
      rw [getD_of_getElem _ _ _ hpos']
      simp only [process_chunks_parallel, List.getElem_map]
      rw [hget]
    refine ⟨pos, hpos', ?_, hres, ?_⟩
    · rw [getD_of_getElem _ _ _ hpos]
      exact hget
    · intro hout
      rw [hres, hout]
      rfl

/-- Witness for C3: one chunk whose call raises; the order `[0]` is a
permutation of the indices, the dispatcher returns one slot and it is `""`. -/
theorem C3_result_slots_witness :
    List.Perm [0] (List.range (List.length [['a']])) ∧
    ((process_chunks_parallel [['a']] [CallOutcome.raises] [0]).length =
        List.length [['a']] ∧
     ∀ i, i < List.length [['a']] →
       ∃ pos, pos < (process_chunks_parallel [['a']] [CallOutcome.raises] [0]).length ∧
         List.getD [0] pos 0 = i ∧
         (process_chunks_parallel [['a']] [CallOutcome.raises] [0]).getD pos [] =
           process_chunk (List.getD [['a']] i [])
             (List.getD [CallOutcome.raises] i CallOutcome.raises) (i + 1) ∧
         (List.getD [CallOutcome.raises] i CallOutcome.raises = CallOutcome.raises →
           (process_chunks_parallel [['a']] [CallOutcome.raises] [0]).getD pos [] = [])) := by
  have h : List.Perm [0] (List.range (List.length [['a']])) := by decide
  exact ⟨h, C3_result_slots [['a']] [CallOutcome.raises] [0] h⟩

/-! ### Substring-containment lemmas (C5) -/

theorem isPrefixOfL_refl (x : List Char) : isPrefixOfL x x = true := by
  induction x with
  | nil => rfl
  | cons a as ih => simp [isPrefixOfL, ih]

theorem isPrefixOfL_extend (pat : List Char) :
    ∀ (x u : List Char), isPrefixOfL pat x = true → isPrefixOfL pat (x ++ u) = true := by
  induction pat with
  | nil => intro x u _; rfl
  | cons a as ih =>
    intro x u h
    cases x with
    | nil => simp [isPrefixOfL] at h
    | cons b bs =>
      simp only [isPrefixOfL, Bool.and_eq_true, beq_iff_eq] at h
      simp only [List.cons_append, isPrefixOfL, Bool.and_eq_true, beq_iff_eq]
      exact ⟨h.1, ih bs u h.2⟩

theorem containsSub_nil_pat (l : List Char) : containsSub [] l = true := by
  cases l with
  | nil => rfl
  | cons c rest => simp [containsSub, isPrefixOfL]

theorem containsSub_append_left (pat : List Char) :
    ∀ (s t : List Char), containsSub pat t = true → containsSub pat (s ++ t) = true := by
  intro s
  induction s with
  | nil => intro t h; exact h
  | cons c s ih =>
    intro t h
    show containsSub pat (c :: (s ++ t)) = true
    simp only [containsSub, Bool.or_eq_true]
    exact Or.inr (ih t h)

theorem containsSub_append_right (pat : List Char) :
    ∀ (x u : List Char), containsSub pat x = true → containsSub pat (x ++ u) = true := by
  intro x
  induction x with
  | nil =>
    intro u h
    cases pat with
    | nil => exact containsSub_nil_pat u
    | cons a as => simp [containsSub, isPrefixOfL] at h
  | cons c x ih =>
    intro u h
    simp only [containsSub, Bool.or_eq_true] at h
    simp only [List.cons_append, containsSub, Bool.or_eq_true]
    rcases h with h | h
    · exact Or.inl (isPrefixOfL_extend pat (c :: x) u h)
    · exact Or.inr (ih u h)

theorem containsSub_self (x : List Char) : containsSub x x = true := by
  cases x with
  | nil => rfl
  | cons c rest =>
    simp only [containsSub, Bool.or_eq_true]
    exact Or.inl (isPrefixOfL_refl (c :: rest))

theorem containsSub_stripLeading (pat l : List Char) :
    containsSub pat (stripLeading l) = true → containsSub pat l = true := by
  intro h
  have h2 : containsSub pat (l.takeWhile isPySpace ++ l.dropWhile isPySpace) = true :=
    containsSub_append_left pat (l.takeWhile isPySpace) (l.dropWhile isPySpace) h
  rw [List.takeWhile_append_dropWhile isPySpace l] at h2
  exact h2

theorem containsSub_stripTrailing (pat l : List Char) :
    containsSub pat (stripTrailing l) = true → containsSub pat l = true := by
  intro h
  have h2 := containsSub_append_right pat (stripTrailing l)
    ((l.reverse.takeWhile isPySpace).reverse) h
  have h3 := congrArg List.reverse (List.takeWhile_append_dropWhile isPySpace l.reverse)
  rw [List.reverse_append, List.reverse_reverse] at h3
  rw [show stripTrailing l ++ (l.reverse.takeWhile isPySpace).reverse = l from h3] at h2
  exact h2

theorem containsSub_pyStrip (pat l : List Char) :
    containsSub pat (pyStrip l) = true → containsSub pat l = true :=
  fun h => containsSub_stripTrailing pat l
    (containsSub_stripLeading pat (stripTrailing l) h)

theorem containsSub_joinWithSep (x : List Char) :
    ∀ xs : List (List Char), x ∈ xs → containsSub x (joinWithSep xs) = true := by
  intro xs
  induction xs with
  | nil => intro h; exact absurd h (List.not_mem_nil x)
  | cons y rest ih =>
    intro hmem
    rcases List.mem_cons.mp hmem with rfl | hmem
    · cases rest with
      | nil => exact containsSub_self x
      | cons z rs =>
        show containsSub x (x ++ sepChars ++ joinWithSep (z :: rs)) = true
        rw [List.append_assoc]
        exact containsSub_append_right x x _ (containsSub_self x)
    · cases rest with
      | nil => exact absurd hmem (List.not_mem_nil x)
      | cons z rs =>
        show containsSub x (y ++ sepChars ++ joinWithSep (z :: rs)) = true
        rw [List.append_assoc]
        exact containsSub_append_left x y _
          (containsSub_append_left x sepChars _ (ih hmem))

theorem containsSub_aggregate (x : List Char) (results : List (List Char))
    (hmem : x ∈ results) (hne : x ≠ []) :
    containsSub x (aggregate results) = true := by
  apply containsSub_joinWithSep
  apply List.mem_filter.mpr
  refine ⟨hmem, ?_⟩
  cases x with
  | nil => exact absurd rfl hne
  | cons c rest => rfl

/-- Claim C5: when the remote call returns text missing at least one of the two
structural markers, `process_chunk` returns the non-empty error-tagged string
`"[Error processing chunk {n}]\n"` followed by the (stripped) returned output,
and — being non-empty — that result survives the empty-filter and appears as a
substring of the final aggregated output of any result list containing it. -/
theorem C5_soft_validation (chunk content : List Char) (u : Option Usage) (n : Nat)
    (hmiss : ¬ (containsSub germanMarker content = true ∧
        containsSub englishMarker content = true)) :
    process_chunk chunk (CallOutcome.returns content u) n ≠ [] ∧
    process_chunk chunk (CallOutcome.returns content u) n =
      errorHeader n ++ pyStrip content ∧
    ∀ results, process_chunk chunk (CallOutcome.returns content u) n ∈ results →
      containsSub (process_chunk chunk (CallOutcome.returns content u) n)
        (aggregate results) = true := by
  have hg_or : containsSub germanMarker (pyStrip content) = false ∨
      containsSub englishMarker (pyStrip content) = false := by
    by_contra hc
    push_neg at hc
    obtain ⟨hg, he⟩ := hc
    have hg' : containsSub germanMarker (pyStrip content) = true := by
      cases hgv : containsSub germanMarker (pyStrip content) with
      | false => exact absurd hgv hg
      | true => rfl
    have he' : containsSub englishMarker (pyStrip content) = true := by
      cases hev : containsSub englishMarker (pyStrip content) with
      | false => exact absurd hev he
      | true => rfl
    exact hmiss ⟨containsSub_pyStrip _ _ hg', containsSub_pyStrip _ _ he'⟩
  have hcond : (!containsSub germanMarker (pyStrip content) ||
      !containsSub englishMarker (pyStrip content)) = true := by
    rcases hg_or with h | h <;> rw [h] <;> simp
  have heq : process_chunk chunk (CallOutcome.returns content u) n =
      errorHeader n ++ pyStrip content := by
    show (if !containsSub germanMarker (pyStrip content) ||
        !containsSub englishMarker (pyStrip content)
      then errorHeader n ++ pyStrip content else pyStrip content) =
      errorHeader n ++ pyStrip content
    rw [if_pos hcond]
  have hne : process_chunk chunk (CallOutcome.returns content u) n ≠ [] := by
    rw [heq]
    apply List.append_ne_nil_of_left_ne_nil
    apply List.append_ne_nil_of_left_ne_nil
    apply List.append_ne_nil_of_left_ne_nil
    decide
  exact ⟨hne, heq, fun results hmem => containsSub_aggregate _ results hmem hne⟩

/-- A returned content with neither structural marker, for the C5 witness. -/
def contentC5 : List Char := "hallo welt".data

/-- Witness for C5: at the concrete marker-free content the error-tagged result
is produced, is non-empty, and is contained in any aggregate that includes it. -/
theorem C5_soft_validation_witness :
    (¬ (containsSub germanMarker contentC5 = true ∧
        containsSub englishMarker contentC5 = true)) ∧
    (process_chunk [] (CallOutcome.returns contentC5 none) 1 ≠ [] ∧
     process_chunk [] (CallOutcome.returns contentC5 none) 1 =
       errorHeader 1 ++ pyStrip contentC5 ∧
     ∀ results, process_chunk [] (CallOutcome.returns contentC5 none) 1 ∈ results →
       containsSub (process_chunk [] (CallOutcome.returns contentC5 none) 1)
         (aggregate results) = true) :=
  ⟨by decide, C5_soft_validation [] contentC5 none 1 (by decide)⟩

/-! ### Separator counting (C4) -/

theorem countOccurAux_skip (sep : List Char) :
    ∀ (l : List Char) (k : Nat), countOccurAux sep l k = countOccurAux sep (l.drop k) 0 := by
  intro l
  induction l with
  | nil => intro k; rw [List.drop_nil]; rfl
  | cons c rest ih =>
    intro k
    cases k with
    | zero => rfl
    | succ k =>
      show countOccurAux sep rest k = countOccurAux sep ((c :: rest).drop (k + 1)) 0
      rw [List.drop_succ_cons]
      exact ih k

theorem countOccur_cons (sep : List Char) (c : Char) (rest : List Char) :
    countOccur sep (c :: rest) =
      if isPrefixOfL sep (c :: rest) then
        1 + countOccur sep (rest.drop (sep.length - 1))
      else countOccur sep rest := by
  show (if isPrefixOfL sep (c :: rest) then
      1 + countOccurAux sep rest (sep.length - 1)
    else countOccurAux sep rest 0) = _
  rw [countOccurAux_skip sep rest (sep.length - 1)]
  rfl

theorem isPrefixOfL_mono (x z : List Char) :
    ∀ l, isPrefixOfL (x ++ z) l = true → isPrefixOfL x l = true := by
  induction x with
  | nil => intro l _; rfl
  | cons a as ih =>
    intro l h
    cases l with
    | nil => simp [isPrefixOfL] at h
    | cons b bs =>
      simp only [List.cons_append, isPrefixOfL, Bool.and_eq_true] at h ⊢
      exact ⟨h.1, ih bs h.2⟩

theorem nn_of_sep (l : List Char) (h : isPrefixOfL sepChars l = true) :
    isPrefixOfL nnChars l = true := by
  have hdecomp : sepChars = nnChars ++ ['-', '-', '-', '\n', '\n'] := rfl
  rw [hdecomp] at h
  exact isPrefixOfL_mono nnChars ['-', '-', '-', '\n', '\n'] l h

theorem isPrefixOfL_cons_true {a : Char} {as : List Char} {b : Char} {bs : List Char}
    (h : isPrefixOfL (a :: as) (b :: bs) = true) :
    a = b ∧ isPrefixOfL as bs = true := by
  simp only [isPrefixOfL, Bool.and_eq_true, beq_iff_eq] at h
  exact h

theorem containsSub_cons_false (pat : List Char) (c : Char) (rest : List Char)
    (h : containsSub pat (c :: rest) = false) :
    isPrefixOfL pat (c :: rest) = false ∧ containsSub pat rest = false := by
  have h' : (isPrefixOfL pat (c :: rest) || containsSub pat rest) = false := h
  cases hp : isPrefixOfL pat (c :: rest) with
  | true => rw [hp] at h'; simp at h'
  | false =>
    cases hc : containsSub pat rest with
    | true => rw [hp, hc] at h'; simp at h'
    | false => exact ⟨rfl, rfl⟩

theorem countOccur_eq_zero (l : List Char) (h : containsSub nnChars l = false) :
    countOccur sepChars l = 0 := by
  induction l with
  | nil => rfl
  | cons c rest ih =>
    obtain ⟨h1, h2⟩ := containsSub_cons_false nnChars c rest h
    have hsep : isPrefixOfL sepChars (c :: rest) = false := by
      cases hv : isPrefixOfL sepChars (c :: rest) with
      | false => rfl
      | true => rw [nn_of_sep _ hv] at h1; cases h1
    rw [countOccur_cons,
      if_neg (show isPrefixOfL sepChars (c :: rest) ≠ true by simp [hsep])]
    exact ih h2

theorem countOccur_boundary :
    ∀ (y t : List Char), containsSub nnChars y = false →
      countOccur sepChars (y ++ (sepChars ++ t)) = 1 + countOccur sepChars t := by
  intro y
  induction y with
  | nil =>
    intro t h
    show countOccur sepChars
      ('\n' :: '\n' :: '-' :: '-' :: '-' :: '\n' :: '\n' :: t) = 1 + countOccur sepChars t
    rw [countOccur_cons]
    have hpre : isPrefixOfL sepChars
        ('\n' :: '\n' :: '-' :: '-' :: '-' :: '\n' :: '\n' :: t) = true :=
      isPrefixOfL_extend sepChars sepChars t (isPrefixOfL_refl sepChars)
    rw [if_pos hpre]
    rfl
  | cons c y ih =>
    intro t h
    obtain ⟨h1, h2⟩ := containsSub_cons_false nnChars c y h
    show countOccur sepChars (c :: (y ++ (sepChars ++ t))) = 1 + countOccur sepChars t
    have hnot : isPrefixOfL sepChars (c :: (y ++ (sepChars ++ t))) = false := by
      cases hv : isPrefixOfL sepChars (c :: (y ++ (sepChars ++ t))) with
      | false => rfl
      | true =>
        exfalso
        cases y with
        | nil =>
          have hv' : isPrefixOfL ['\n', '\n', '-', '-', '-', '\n', '\n']
              (c :: '\n' :: '\n' :: '-' :: '-' :: '-' :: '\n' :: '\n' :: t) = true := hv
          obtain ⟨hc, hv1⟩ := isPrefixOfL_cons_true hv'
          obtain ⟨_, hv2⟩ := isPrefixOfL_cons_true hv1
          obtain ⟨hbad, _⟩ := isPrefixOfL_cons_true hv2
          exact absurd hbad (by decide)
        | cons y0 ys =>
          have hnn : isPrefixOfL ['\n', '\n']
              (c :: y0 :: (ys ++ (sepChars ++ t))) = true := nn_of_sep _ hv
          obtain ⟨hc, hnn1⟩ := isPrefixOfL_cons_true hnn
          obtain ⟨hy0, _⟩ := isPrefixOfL_cons_true hnn1
          have htrue : isPrefixOfL nnChars (c :: y0 :: ys) = true := by
            rw [← hc, ← hy0]
            rfl
          rw [htrue] at h1
          cases h1
    rw [countOccur_cons,
      if_neg (show isPrefixOfL sepChars (c :: (y ++ (sepChars ++ t))) ≠ true by
        simp [hnot])]
    exact ih t h2

theorem countOccur_join (xs : List (List Char))
    (h : ∀ x ∈ xs, containsSub nnChars x = false) :
    countOccur sepChars (joinWithSep xs) = xs.length - 1 := by
  induction xs with
  | nil => rfl
  | cons x rest ih =>
    cases rest with
    | nil =>
      show countOccur sepChars x = [x].length - 1
      rw [countOccur_eq_zero x (h x (List.mem_cons_self x []))]
      rfl
    | cons y rs =>
      show countOccur sepChars (x ++ sepChars ++ joinWithSep (y :: rs)) =
        (x :: y :: rs).length - 1
      rw [List.append_assoc]
      rw [countOccur_boundary x (joinWithSep (y :: rs)) (h x (List.mem_cons_self x _))]
      rw [ih (fun z hz => h z (List.mem_cons_of_mem x hz))]
      simp only [List.length_cons]
      omega

/-- Claim C4, amended: aggregation drops exactly the empty-string results and
joins the remaining ones with the fixed separator `"\n\n---\n\n"`; provided no
result contains two consecutive newline characters, the aggregated output
contains exactly (count of non-empty results − 1) occurrences of the separator
(0 when there are no non-empty results; without the proviso a result containing
the separator, or newline runs abutting it, adds spurious occurrences). -/
theorem C4_separator_count_amended (results : List (List Char))
    (h : ∀ r ∈ results, containsSub nnChars r = false) :
    aggregate results = joinWithSep (results.filter (fun r => !r.isEmpty)) ∧
    countOccur sepChars (aggregate results) =
      (results.filter (fun r => !r.isEmpty)).length - 1 := by
  refine ⟨rfl, ?_⟩
  apply countOccur_join
  intro x hx
  exact h x (List.mem_of_mem_filter hx)

/-- Witness for C4 (amended): results `["a", "", "b"]` keep two non-empty
entries and the aggregate contains exactly one separator occurrence. -/
theorem C4_separator_count_witness :
    (∀ r ∈ ([['a'], [], ['b']] : List (List Char)), containsSub nnChars r = false) ∧
    (aggregate [['a'], [], ['b']] =
       joinWithSep (([['a'], [], ['b']] : List (List Char)).filter (fun r => !r.isEmpty)) ∧
     countOccur sepChars (aggregate [['a'], [], ['b']]) =
       (([['a'], [], ['b']] : List (List Char)).filter (fun r => !r.isEmpty)).length - 1) :=
  ⟨by decide, C4_separator_count_amended [['a'], [], ['b']] (by decide)⟩
